import Mathlib

/-!
# Verification of the vsite gallery generator (`generator/generator.go`, `main.go`)

This file is a shallow embedding, in Lean 4, of the core of the `vsite` static
video-gallery generator, together with proofs and refutations of the frozen
claims about it.

Modelling conventions, used throughout:

* A filesystem is a `List FileP`, where a `FileP` is a directory (a list of
  path segments relative to the scan root; `[]` is the root itself) plus a
  base name.  Lists of files given to a scan are assumed listed in the order
  `filepath.Walk` visits them (lexical, depth-first); concrete example
  filesystems in this file are written in that order.  Only regular files are
  listed; `os.Stat` probes are modelled as membership in the list.
* Go `string` values are Lean `String`s.  Go compares strings byte-wise;
  since UTF-8 preserves code-point order, this agrees with Lean's `String`
  order (lexicographic on `Char`).
* `strings.ToLower` is modelled on the ASCII range (`goToLower`), which is
  exact for every character that can influence membership in the (all-ASCII)
  extension sets used by the program.
* External effects (template rendering, file writes, the `ffmpeg` child
  process) are modelled by the data the code passes to them: the set of
  output filenames written, and an oracle `encErr : FileP → Option String`
  giving the cause of failure (if any) of the encoder invocation on a task.
-/

namespace VSite

/-! ## String helpers mirroring the Go standard library -/

/-- `strings.ToLower` restricted to ASCII: exactly the Go behaviour on ASCII
characters, which are the only ones the extension sets contain. -/
def goToLowerChar (c : Char) : Char :=
  if 'A' ≤ c ∧ c ≤ 'Z' then Char.ofNat (c.toNat + 32) else c

/-- `strings.ToLower` (ASCII fragment, see `goToLowerChar`). -/
def goToLower (s : String) : String :=
  String.mk (s.data.map goToLowerChar)

/-- `filepath.Ext` applied to a base name: the suffix starting at the final
dot, `""` if the name contains no dot. -/
def goExt (s : String) : String :=
  let rev := s.data.reverse
  let pre := rev.takeWhile (fun c => c ≠ '.')
  if pre.length = rev.length then "" else String.mk ('.' :: pre.reverse)

/-- `strings.TrimSuffix`. -/
def goTrimSuffix (s suffix : String) : String :=
  if suffix.data.isSuffixOf s.data then
    String.mk (s.data.take (s.data.length - suffix.data.length))
  else s

/-- `strings.HasPrefix name "."`, the hidden-name test of the scanner. -/
def isHidden (s : String) : Bool :=
  match s.data with
  | '.' :: _ => true
  | _ => false

/-! ## The data model (`generator.go`) -/

/-- One regular file of the source tree: owning directory (path segments
relative to the scan root, `[]` = root) and base name. -/
structure FileP where
  dir : List String
  base : String
deriving DecidableEq, Repr

/-- `videoExtensions` (generator.go line 23). -/
def videoExtensions : List String :=
  [".mp4", ".webm", ".mkv", ".avi", ".mov", ".m4v", ".ogv", ".3gp"]

/-- `needsConversion` (generator.go line 35). -/
def needsConversion : List String :=
  [".mkv", ".avi", ".mov", ".wmv", ".flv"]

/-- The `Video` record (generator.go line 44).  `relativePath` and
`directory` are kept as segment lists; `""`-for-root becomes `[]`. -/
structure Video where
  name : String
  fileName : String
  relativePath : List String
  extension : String
  directory : List String
  playerPage : String
deriving DecidableEq, Repr

/-- `sanitizeFileName` (generator.go line 221): keep ASCII letters, digits,
`_`, `-`; turn a space into `_`; drop every other character. -/
def sanitizeChar (c : Char) : Option Char :=
  if ('a' ≤ c ∧ c ≤ 'z') ∨ ('A' ≤ c ∧ c ≤ 'Z') ∨ ('0' ≤ c ∧ c ≤ '9')
      ∨ c = '_' ∨ c = '-' then some c
  else if c = ' ' then some '_'
  else none

/-- `sanitizeFileName` (generator.go line 221). -/
def sanitizeFileName (s : String) : String :=
  String.mk (s.data.filterMap sanitizeChar)

/-- `generatePlayerFileName` (generator.go line 213): join the relative path
with `_`, strip the (raw, non-lowercased) extension, sanitize, and wrap in
`player_….html`. -/
def generatePlayerFileName (relPath : List String) : String :=
  let name := String.intercalate "_" relPath
  let name := goTrimSuffix name (goExt name)
  "player_" ++ sanitizeFileName name ++ ".html"

/-! ## The scanner (`scanVideos`, generator.go line 157) -/

/-- `os.Stat` on `dir/name` succeeds: modelled as membership in the file
list. -/
def statExists (fs : List FileP) (dir : List String) (name : String) : Bool :=
  fs.any (fun g => g.dir == dir && g.base == name)

/-- The walk reaches a file iff no segment of its directory is hidden
(`filepath.SkipDir` prunes hidden directories with their subtrees;
generator.go line 163). -/
def walkReaches (f : FileP) : Bool :=
  !(f.dir.any (fun seg => isHidden seg))

/-- The sibling name probed by the dedup check (generator.go line 179):
the base name with its **lowercased** extension trimmed, plus `".mp4"`.
(Note the trim uses the lowercased extension while the file name may not be
lowercase; this is mirrored exactly.) -/
def mp4SiblingName (base : String) : String :=
  goTrimSuffix base (goToLower (goExt base)) ++ ".mp4"

/-- Whether the walk callback keeps a (reached) file: extension supported,
and not deduplicated away by an existing `.mp4` sibling
(generator.go lines 172–184). -/
def scanKeeps (fs : List FileP) (f : FileP) : Bool :=
  let ext := goToLower (goExt f.base)
  videoExtensions.contains ext &&
    !(needsConversion.contains ext && statExists fs f.dir (mp4SiblingName f.base))

/-- The `Video` record built for a kept file (generator.go lines 196–203). -/
def mkVideo (f : FileP) : Video :=
  let ext := goToLower (goExt f.base)
  { name := goTrimSuffix f.base ext
    fileName := f.base
    relativePath := f.dir ++ [f.base]
    extension := ext
    directory := f.dir
    playerPage := generatePlayerFileName (f.dir ++ [f.base]) }

/-- `scanVideos` (generator.go line 157): `rootBase` is the base name of the
scan root (`filepath.Walk` visits the root first, and a hidden root is
`SkipDir`red immediately, ending the walk with no entries).  `fs` is the file
list in walk order. -/
def scanVideos (rootBase : String) (fs : List FileP) : List Video :=
  if isHidden rootBase then []
  else ((fs.filter walkReaches).filter (scanKeeps fs)).map mkVideo

/-- `g.dirTree[dir]`: the videos of one directory, in catalog order
(grouping by `Directory` preserves append order). -/
def dirVideos (cat : List Video) (d : List String) : List Video :=
  cat.filter (fun v => v.directory == d)

/-! ## The hierarchy (`generateIndexPages` / `generateIndexPage`) -/

/-- The upward walk of `generateIndexPages` (generator.go lines 238–247):
starting from a video's directory, insert it and every ancestor up to (but
excluding) the root. -/
def ancestorsOfAux : Nat → List String → List (List String)
  | 0, _ => []
  | _ + 1, [] => []
  | n + 1, d@(_ :: _) => d :: ancestorsOfAux n d.dropLast

/-- The upward walk, with enough fuel for any starting directory
(`dropLast` shortens the list by one at each step). -/
def ancestorsOf (d : List String) : List (List String) :=
  ancestorsOfAux d.length d

/-- The set of directories an index page is generated for
(generator.go lines 235–247): the root plus the upward closure of every
video's directory.  The Go code holds this as a map used only for membership,
so the list is deduplicated. -/
def requiredDirs (cat : List Video) : List (List String) :=
  (([] : List String) :: cat.flatMap (fun v => ancestorsOf v.directory)).dedup

/-- The distinct keys of `g.dirTree`: directories holding at least one video
directly, in first-appearance order. -/
def dirTreeKeys (cat : List Video) : List (List String) :=
  (cat.map (fun v => v.directory)).dedup

/-- The immediate-child segment that a grouping key `d` contributes to the
page of `dir` (generator.go lines 263–282): for the root every other key
contributes its first segment; otherwise `d` must extend `dir` (the
string-prefix test on `d = dir + "/" + …` is exactly segment-list prefix
plus `d ≠ dir`) and contributes the next segment. -/
def childSeg (dir d : List String) : Option String :=
  if d == dir then none
  else if dir.isPrefixOf d then (d.drop dir.length).head?
  else none

/-- A subdirectory entry of an index page (generator.go line 83). -/
structure DirEntry where
  name : String
  path : String
deriving DecidableEq, Repr

/-- The deduplicated set of immediate-subdirectory names shown on the page
of `dir` (the Go code collects them in a `map[string]bool`). -/
def subdirNames (cat : List Video) (dir : List String) : List String :=
  ((dirTreeKeys cat).filterMap (childSeg dir)).dedup

/-- The subdirectory entries of the page of `dir`, sorted by name
(generator.go lines 285–298).  The Go code sorts with `sort.Slice`; the
names are pairwise distinct (they come out of a set), so every sorted
permutation is the same list and the deterministic `insertionSort` below is
exactly the list the program produces.  The link path joins `dir ++ [name]`
with `_` (no sanitization) and appends `_index.html`. -/
def subdirEntries (cat : List Video) (dir : List String) : List DirEntry :=
  ((subdirNames cat dir).insertionSort (· ≤ ·)).map
    (fun s => ⟨s, String.intercalate "_" (dir ++ [s]) ++ "_index.html"⟩)

/-- The output filename of the listing page of `dir`
(generator.go lines 339–342): the literal `index.html` for the root, else
the segments joined with `_` (no sanitization) plus `_index.html`. -/
def indexFileName (dir : List String) : String :=
  if dir = [] then "index.html"
  else String.intercalate "_" dir ++ "_index.html"

/-- Modelled from the spec (§4.1), for comparison with `indexFileName`:
the spec asserts listing filenames run through the same
flattening-and-sanitization algorithm as player filenames, i.e. join with
`_` **then character-filter**, then append `_index.html`. -/
def specIndexFileName (dir : List String) : String :=
  if dir = [] then "index.html"
  else sanitizeFileName (String.intercalate "_" dir) ++ "_index.html"

/-! ## Video ordering on a page (`sort.Slice`, generator.go lines 302–304)

`generateIndexPage` sorts `g.dirTree[dir]` in place with `sort.Slice`,
comparing display names.  `sort.Slice`'s documented contract is that the
slice ends up sorted with respect to the comparison, and explicitly **not**
that the sort is stable ("The sort is not guaranteed to be stable", Go
standard library documentation); the tie order is an artifact of the
internal pattern-defeating quicksort.  The guaranteed behaviour is therefore
the relation below: the page shows some name-sorted permutation of the
directory's videos. -/

/-- The documented contract of `sort.Slice(videos, Name i < Name j)`:
`l'` is a permutation of `l` that is sorted by display name.  (Sortedness
"no element is strictly less than its predecessor" is equivalent to pairwise
`≤` because `String` is linearly ordered.) -/
def sortSliceContract (l l' : List Video) : Prop :=
  l.Perm l' ∧ l'.Pairwise (fun a b => a.name ≤ b.name)

/-- Executable adjacent-sortedness check on display names (comparison done
on the character lists, which the kernel can evaluate). -/
def namesSortedB : List Video → Bool
  | [] => true
  | [_] => true
  | a :: b :: t =>
    decide (a.name.toList ≤ b.name.toList) && namesSortedB (b :: t)

/-! ## Player-page navigation (`generatePlayerPage`, generator.go 386–403) -/

/-- The prev/next data of a player page (generator.go lines 95–98;
Go zero values `false` / `""` when absent). -/
structure Nav where
  hasPrev : Bool
  prevVideo : String
  hasNext : Bool
  nextVideo : String
deriving DecidableEq, Repr

/-- The `Nav` record built when the loop of `generatePlayerPage` finds the
video at position `j` of the directory list `all`: previous/next are the
player pages of the positional neighbours, absent at the two ends
(`j > 0`, `j < len-1`; generator.go lines 391–403). -/
def navAt (all : List Video) (j : Nat) : Nav :=
  { hasPrev := decide (0 < j)
    prevVideo :=
      if 0 < j then (((all.get? (j - 1)).map (fun w => w.playerPage)).getD "")
      else ""
    hasNext := decide (j + 1 < all.length)
    nextVideo :=
      if j + 1 < all.length then
        (((all.get? (j + 1)).map (fun w => w.playerPage)).getD "")
      else "" }

/-- The navigation loop of `generatePlayerPage` (generator.go lines
390–403): scan the directory's (by now sorted) video list for the first
entry with the video's relative path, then `break` with its neighbours;
Go zero values if no entry matches. -/
def findNavLoop (all : List Video) (v : Video) :
    List Video → Nat → Nav
  | [], _ => ⟨false, "", false, ""⟩
  | w :: rest, j =>
    if w.relativePath == v.relativePath then navAt all j
    else findNavLoop all v rest (j + 1)

/-- The navigation data computed for `v` against its directory list. -/
def findNav (dirVids : List Video) (v : Video) : Nav :=
  findNavLoop dirVids v dirVids 0

/-! ## `Generate` (generator.go line 118): the set of files written -/

/-- The filenames a successful `Generate` run writes into the root
directory: one listing page per required directory and one player page per
video.  (`generateStylesheet` exists in the source but is never called, so
no `style.css` appears here.)  A run with an empty catalog fails with the
`no videos found` error instead. -/
def generateRun (rootName : String) (fs : List FileP) :
    Except String (List String) :=
  let cat := scanVideos rootName fs
  if cat.isEmpty then
    .error ("no videos found in directory '" ++ rootName ++ "'")
  else
    .ok ((requiredDirs cat).map indexFileName ++
      cat.map (fun v => v.playerPage))

/-! ## The conversion pass (`ConvertVideos`, generator.go line 872) -/

/-- The task set built by the conversion walk (generator.go lines 891–917):
reachable files whose lowercased extension needs conversion and for which
`os.Stat` of the probed sibling (lowercased-extension trim, line 909) finds
nothing. -/
def buildConvertTasks (rootBase : String) (fs : List FileP) : List FileP :=
  if isHidden rootBase then []
  else (fs.filter walkReaches).filter (fun f =>
    needsConversion.contains (goToLower (goExt f.base)) &&
      !statExists fs f.dir (mp4SiblingName f.base))

/-- The target the conversion loop actually writes (generator.go lines
931–932): the source name with its **raw** extension trimmed, plus `.mp4`.
(Unlike the existence probe, this trim uses the non-lowercased extension.) -/
def convTarget (f : FileP) : FileP :=
  ⟨f.dir, goTrimSuffix f.base (goExt f.base) ++ ".mp4"⟩

/-- The filesystem after a conversion run in which every encoder invocation
succeeds: each task's target is written next to its source. -/
def fsAfterConvert (rootBase : String) (fs : List FileP) : List FileP :=
  fs ++ (buildConvertTasks rootBase fs).map convTarget

/-- What the per-task loop produced (generator.go lines 930–980):
warnings `(file name, cause)` printed for failed tasks, targets removed
after failures, targets written by successful tasks. -/
structure ConvOutcome where
  warnings : List (String × String)
  removed : List FileP
  converted : List FileP
deriving DecidableEq, Repr

/-- The conversion loop (generator.go lines 930–980), parameterised by the
encoder outcome oracle `encErr` (`none` = `cmd.Run()` succeeded, `some c` =
it failed with cause `c`).  On failure the loop prints a warning naming the
file and the cause, removes any partial output at the target, and
`continue`s. -/
def runConvertLoop (tasks : List FileP) (encErr : FileP → Option String) :
    ConvOutcome :=
  tasks.foldl
    (fun o t =>
      match encErr t with
      | some c =>
        { o with
          warnings := o.warnings ++ [(t.base, c)]
          removed := o.removed ++ [convTarget t] }
      | none => { o with converted := o.converted ++ [convTarget t] })
    ⟨[], [], []⟩

/-- `ConvertVideos` (generator.go line 872): fatal checks (encoder binary on
the path; GPU probe when requested, `gpuProbe = some e` meaning the probe
failed with message `e`), then the task walk and the per-task loop.  The
loop itself never produces an error. -/
def convertVideos (ffmpegOnPath : Bool) (useGPU : Bool)
    (gpuProbe : Option String) (rootBase : String) (fs : List FileP)
    (encErr : FileP → Option String) : Except String ConvOutcome :=
  if !ffmpegOnPath then .error "ffmpeg not found"
  else if useGPU && (gpuProbe.isSome) then .error (gpuProbe.getD "")
  else .ok (runConvertLoop (buildConvertTasks rootBase fs) encErr)

/-! ## `Clean` (generator.go line 734) -/

/-- `path.Match` for the patterns `Clean` uses (literal characters and `*`;
`*` matches any — possibly empty — run of non-separator characters).  The
four patterns contain no `?`, no character classes and no escapes, so this
is the full matcher for them. -/
def goMatchAux : Nat → List Char → List Char → Bool
  | 0, _, _ => false
  | _ + 1, [], [] => true
  | _ + 1, [], _ :: _ => false
  | n + 1, '*' :: ps, [] => goMatchAux n ps []
  | n + 1, '*' :: ps, c :: cs =>
    goMatchAux n ps (c :: cs) || (c ≠ '/' && goMatchAux n ('*' :: ps) cs)
  | _ + 1, _ :: _, [] => false
  | n + 1, p :: ps, c :: cs => p == c && goMatchAux n ps cs

/-- `path.Match` with enough fuel (each step shrinks pattern+name by at
least one, so `|pattern| + |name| + 1` steps never run out). -/
def goMatch (ps s : List Char) : Bool :=
  goMatchAux (ps.length + s.length + 1) ps s

/-- The generated-file patterns of `Clean` (generator.go lines 738–743). -/
def cleanPatterns : List String :=
  ["index.html", "style.css", "*_index.html", "player_*.html"]

/-- `filepath.Glob(root/pattern)` matches a file iff it lies directly in the
root (`*` cannot cross a separator) and its base name matches. -/
def globMatches (pattern : String) (f : FileP) : Bool :=
  f.dir == [] && goMatch pattern.data f.base.data

/-- A file `Clean` will delete. -/
def isCleanTarget (f : FileP) : Bool :=
  f.dir == [] && cleanPatterns.any (fun p => goMatch p.data f.base.data)

/-- `Clean` (generator.go lines 745–757): for each pattern in order, glob
the root and remove the matches.  Returns the removed files (in removal
order) and the remaining filesystem. -/
def cleanRun (fs : List FileP) : List FileP × List FileP :=
  cleanPatterns.foldl
    (fun st p =>
      let hits := st.2.filter (globMatches p)
      (st.1 ++ hits, st.2.filter (fun f => !globMatches p f)))
    ([], fs)

/-! ### C4: sort order of index-page entries

The subdirectory entries are sorted over *distinct* names (they come out of
a set), so their order is fully determined; the video entries are sorted by
display name with `sort.Slice`, whose contract leaves the order of ties
open (`sortSliceContract`).  To show what the standard library actually
does to ties, the remainder of this section transcribes the sorting
algorithm Go's `sort.Slice` runs — `pdqsort_func` of `sort/zsortfunc.go`
(insertion sort below 13 elements, else median-of-three pivot, Hoare
partition, recursion) — operating on an array of `Video`s with the
comparison `videos[i].Name < videos[j].Name`.  Go compares strings
bytewise; on UTF-8 this is code-point lexicographic order, i.e. `<` on the
character lists. -/

instance : Inhabited Video := ⟨⟨"", "", [], "", [], ""⟩⟩

/-- The `less` closure passed to `sort.Slice`
(generator.go lines 302–304). -/
def vLess (a b : Video) : Bool :=
  decide (a.name.toList < b.name.toList)

/-- Indexed comparison on the array being sorted. -/
def aLess (arr : Array Video) (i j : Nat) : Bool :=
  vLess (arr.getD i default) (arr.getD j default)

/-- `data.Swap(i, j)`. -/
def aswap (arr : Array Video) (i j : Nat) : Array Video :=
  let x := arr.getD i default
  let y := arr.getD j default
  (arr.setD i y).setD j x

/-- Inner loop of `insertionSortCmpFunc`: sift the element at `j` down
while it is smaller than its left neighbour and `j > a`. -/
def insInner (aIdx : Nat) : Nat → Array Video → Array Video
  | 0, arr => arr
  | j + 1, arr =>
    if aIdx < j + 1 && aLess arr (j + 1) j then
      insInner aIdx j (aswap arr (j + 1) j)
    else arr

/-- Outer loop of `insertionSortCmpFunc`, `i` from `a+1` to `b-1`. -/
def insOuter (aIdx bIdx : Nat) : Nat → Nat → Array Video → Array Video
  | 0, _, arr => arr
  | f + 1, i, arr =>
    if i < bIdx then insOuter aIdx bIdx f (i + 1) (insInner aIdx i arr)
    else arr

/-- `insertionSortCmpFunc(data, a, b)`. -/
def insertionSortGo (aIdx bIdx : Nat) (arr : Array Video) : Array Video :=
  insOuter aIdx bIdx bIdx (aIdx + 1) arr

/-- `order2CmpFunc`: order two indices, counting a swap. -/
def order2Go (arr : Array Video) (i j swaps : Nat) : Nat × Nat × Nat :=
  if aLess arr j i then (j, i, swaps + 1) else (i, j, swaps)

/-- `medianCmpFunc`: index of the median of three, counting swaps. -/
def medianGo (arr : Array Video) (i j k swaps : Nat) : Nat × Nat :=
  let (i1, j1, s1) := order2Go arr i j swaps
  let (j2, _, s2) := order2Go arr j1 k s1
  let (_, b3, s3) := order2Go arr i1 j2 s2
  (b3, s3)

/-- `medianAdjacentCmpFunc` (used only by the ninther, ranges ≥ 50). -/
def medianAdjacentGo (arr : Array Video) (i swaps : Nat) : Nat × Nat :=
  medianGo arr (i - 1) i (i + 1) swaps

/-- `choosePivotCmpFunc`: returns the pivot index and a sortedness hint
(`0` unknown, `1` increasing, `2` decreasing). -/
def choosePivotGo (arr : Array Video) (a b : Nat) : Nat × Nat :=
  let l := b - a
  let i := a + l / 4 * 1
  let j := a + l / 4 * 2
  let k := a + l / 4 * 3
  if 8 ≤ l then
    let (i', j', k', s0) :=
      if 50 ≤ l then
        let (i1, s1) := medianAdjacentGo arr i 0
        let (j1, s2) := medianAdjacentGo arr j s1
        let (k1, s3) := medianAdjacentGo arr k s2
        (i1, j1, k1, s3)
      else (i, j, k, 0)
    let (jm, s) := medianGo arr i' j' k' s0
    if s = 0 then (jm, 1) else if s = 12 then (jm, 2) else (jm, 0)
  else (j, 1)

/-- The scan of `partialInsertionSortCmpFunc`: advance `i` while the list
is locally nondecreasing. -/
def pisAdvance (arr : Array Video) (bIdx : Nat) : Nat → Nat → Nat
  | 0, i => i
  | f + 1, i =>
    if i < bIdx && !(aLess arr i (i - 1)) then pisAdvance arr bIdx f (i + 1)
    else i

/-- `partialInsertionSortCmpFunc(data, a, b)`: `true` iff the range is
already sorted (found in ≤ 5 scans).  For ranges shorter than
`shortestShifting = 50` the Go routine returns `false` *before its first
mutation*, so it never modifies the array; only that regime is ever
exercised below (all uses have `b - a ≤ 13`), and the ≥ 50 shifting steps
are therefore not modelled. -/
def partialInsertionSortGo (aIdx bIdx : Nat) (arr : Array Video) :
    Bool × Array Video :=
  let i := pisAdvance arr bIdx bIdx (aIdx + 1)
  if i = bIdx then (true, arr)
  else (false, arr)

/-- First inner scan of `partitionCmpFunc`: advance `i` over elements
smaller than the pivot (sitting at `aIdx`). -/
def scanI (arr : Array Video) (aIdx j : Nat) : Nat → Nat → Nat
  | 0, i => i
  | f + 1, i =>
    if i ≤ j && aLess arr i aIdx then scanI arr aIdx j f (i + 1) else i

/-- Second inner scan of `partitionCmpFunc`: retreat `j` over elements not
smaller than the pivot. -/
def scanJ (arr : Array Video) (aIdx i : Nat) : Nat → Nat → Nat
  | 0, j => j
  | f + 1, j =>
    if i ≤ j && !(aLess arr j aIdx) then scanJ arr aIdx i f (j - 1) else j

/-- Main loop of `partitionCmpFunc` after the first crossing swap. -/
def partLoop (aIdx bIdx : Nat) : Nat → Array Video → Nat → Nat →
    Array Video × Nat
  | 0, arr, _, j => (arr, j)
  | f + 1, arr, i, j =>
    let i' := scanI arr aIdx j bIdx i
    let j' := scanJ arr aIdx i' bIdx j
    if i' > j' then (arr, j')
    else partLoop aIdx bIdx f (aswap arr i' j') (i' + 1) (j' - 1)

/-- `partitionCmpFunc(data, a, b, pivot)`: Hoare partition; returns the
modified array, the final pivot position, and whether the range was
already partitioned. -/
def partitionGo (arr0 : Array Video) (aIdx bIdx pivot : Nat) :
    Array Video × Nat × Bool :=
  let arr := aswap arr0 aIdx pivot
  let i0 := aIdx + 1
  let j0 := bIdx - 1
  let i1 := scanI arr aIdx j0 bIdx i0
  let j1 := scanJ arr aIdx i1 bIdx j0
  if i1 > j1 then (aswap arr j1 aIdx, j1, true)
  else
    let arr2 := aswap arr i1 j1
    let (arr3, j2) := partLoop aIdx bIdx bIdx arr2 (i1 + 1) (j1 - 1)
    (aswap arr3 j2 aIdx, j2, false)

/-- Scans of `partitionEqualCmpFunc` (reachable only with `a > 0`, after a
partition step produced a pivot equal to the previous one). -/
def scanEqI (arr : Array Video) (aIdx j : Nat) : Nat → Nat → Nat
  | 0, i => i
  | f + 1, i =>
    if i ≤ j && !(aLess arr aIdx i) then scanEqI arr aIdx j f (i + 1) else i

def scanEqJ (arr : Array Video) (aIdx i : Nat) : Nat → Nat → Nat
  | 0, j => j
  | f + 1, j =>
    if i ≤ j && aLess arr aIdx j then scanEqJ arr aIdx i f (j - 1) else j

def partEqLoop (aIdx bIdx : Nat) : Nat → Array Video → Nat → Nat →
    Array Video × Nat
  | 0, arr, i, _ => (arr, i)
  | f + 1, arr, i, j =>
    let i' := scanEqI arr aIdx j bIdx i
    let j' := scanEqJ arr aIdx i' bIdx j
    if i' > j' then (arr, i')
    else partEqLoop aIdx bIdx f (aswap arr i' j') (i' + 1) (j' - 1)

/-- `partitionEqualCmpFunc(data, a, b, pivot)`. -/
def partitionEqualGo (arr0 : Array Video) (aIdx bIdx pivot : Nat) :
    Array Video × Nat :=
  let arr := aswap arr0 aIdx pivot
  partEqLoop aIdx bIdx bIdx arr (aIdx + 1) (bIdx - 1)

/-- `siftDownCmpFunc(data, lo, hi, first)` (used by heap sort, which
`pdqsort` falls back to when its depth limit hits zero). -/
def siftLoop (arr0 : Array Video) (first hi : Nat) : Nat → Array Video →
    Nat → Array Video
  | 0, arr, _ => arr
  | f + 1, arr, root =>
    let child := 2 * root + 1
    if child ≥ hi then arr
    else
      let child' :=
        if child + 1 < hi && aLess arr (first + child) (first + child + 1)
        then child + 1 else child
      if !(aLess arr (first + root) (first + child')) then arr
      else siftLoop arr0 first hi f (aswap arr (first + root) (first + child')) child'

/-- Heap-construction loop of `heapSortCmpFunc` (roots descending). -/
def heapBuild (first hi : Nat) : Nat → Array Video → Array Video
  | 0, arr => arr
  | c + 1, arr => heapBuild first hi c (siftLoop arr first hi (hi + 1) arr c)

/-- Extraction loop of `heapSortCmpFunc`. -/
def heapExtract (first : Nat) : Nat → Array Video → Array Video
  | 0, arr => arr
  | c + 1, arr =>
    heapExtract first c
      (siftLoop arr first c (c + 1) (aswap arr first (first + c)) 0)

/-- `heapSortCmpFunc(data, a, b)`. -/
def heapSortGo (aIdx bIdx : Nat) (arr : Array Video) : Array Video :=
  let hi := bIdx - aIdx
  heapExtract aIdx hi (heapBuild aIdx hi ((hi - 1) / 2 + 1) arr)

/-- `reverseRangeCmpFunc(data, a, b)`. -/
def revLoop : Nat → Array Video → Nat → Nat → Array Video
  | 0, arr, _, _ => arr
  | f + 1, arr, i, j =>
    if i < j then revLoop f (aswap arr i j) (i + 1) (j - 1) else arr

def reverseRangeGo (aIdx bIdx : Nat) (arr : Array Video) : Array Video :=
  revLoop bIdx arr aIdx (bIdx - 1)

/-- `pdqsortCmpFunc(data, a, b, limit)` — the whole algorithm behind
`sort.Slice`.  The explicit fuel only bounds the loop/recursion nesting
(each step strictly shrinks the range, so `n + 2` fuel suffices for a
range of `n`); `wb`/`wp` are `wasBalanced`/`wasPartitioned`.  The
pattern-breaking perturbation Go applies after an *unbalanced* partition
(`breakPatternsCmpFunc`, pseudo-random swaps) is modelled as leaving the
array unchanged; it is unreachable in every use below, since after the
first partition of a 13-element range both sides are below the insertion
threshold. -/
def pdqsortGo : Nat → Array Video → Nat → Nat → Nat → Bool → Bool →
    Array Video
  | 0, arr, _, _, _, _, _ => arr
  | fuel + 1, arr, a, b, limit, wb, wp =>
    let length := b - a
    if length ≤ 12 then insertionSortGo a b arr
    else if limit = 0 then heapSortGo a b arr
    else
      let limit' := if wb then limit else limit - 1
      let (pivot0, hint0) := choosePivotGo arr a b
      let (arr1, pivot1, hint1) :=
        if hint0 = 2 then (reverseRangeGo a b arr, (b - 1) - (pivot0 - a), 1)
        else (arr, pivot0, hint0)
      let (sorted?, arr2) :=
        if wb && wp && hint1 = 1 then partialInsertionSortGo a b arr1
        else (false, arr1)
      if sorted? then arr2
      else if 0 < a && !(aLess arr2 (a - 1) pivot1) then
        let (arr3, mid) := partitionEqualGo arr2 a b pivot1
        pdqsortGo fuel arr3 mid b limit' wb wp
      else
        let (arr3, mid, alreadyPartitioned) := partitionGo arr2 a b pivot1
        let leftLen := mid - a
        let rightLen := b - mid
        let wasBalanced := decide (min leftLen rightLen ≥ length / 8)
        if leftLen < rightLen then
          let arr4 := pdqsortGo fuel arr3 a mid limit' true true
          pdqsortGo fuel arr4 (mid + 1) b limit' wasBalanced alreadyPartitioned
        else
          let arr4 := pdqsortGo fuel arr3 (mid + 1) b limit' true true
          pdqsortGo fuel arr4 a mid limit' wasBalanced alreadyPartitioned

/-- `bits.Len(uint(n))`, the depth limit `sort.Slice` starts from. -/
def bitsLenAux : Nat → Nat → Nat
  | 0, _ => 0
  | f + 1, n => if n = 0 then 0 else bitsLenAux f (n / 2) + 1

def goBitsLen (n : Nat) : Nat := bitsLenAux (n + 1) n

/-- `sort.Slice(videos, func(i, j) { return videos[i].Name < videos[j].Name })`
(generator.go lines 302–304) as run by the Go standard library. -/
def goSortSlice (l : List Video) : List Video :=
  (pdqsortGo (l.length + 2) l.toArray 0 l.length (goBitsLen l.length)
    true true).toList

/-- A concrete 13-file directory (walk order).  The stems are a nested
chain `x`, `x!a`, `x!a!a`, …: since `'!' < '.'` bytewise, a longer stem
sorts *before* its prefix's file name, so the walk delivers the catalog in
strictly *descending* display-name order — except for the two files with
the equal display name `x!a!a!a!a!a!a` (a `.3gp` and a `.m4v`), which are
adjacent, `.3gp` first. -/
def fsC4 : List FileP :=
  [⟨[], "x!a!a!a!a!a!a!a!a!a!a!a.mp4"⟩,
   ⟨[], "x!a!a!a!a!a!a!a!a!a!a.mp4"⟩,
   ⟨[], "x!a!a!a!a!a!a!a!a!a.mp4"⟩,
   ⟨[], "x!a!a!a!a!a!a!a!a.mp4"⟩,
   ⟨[], "x!a!a!a!a!a!a!a.mp4"⟩,
   ⟨[], "x!a!a!a!a!a!a.3gp"⟩,
   ⟨[], "x!a!a!a!a!a!a.m4v"⟩,
   ⟨[], "x!a!a!a!a!a.mp4"⟩,
   ⟨[], "x!a!a!a!a.mp4"⟩,
   ⟨[], "x!a!a!a.mp4"⟩,
   ⟨[], "x!a!a.mp4"⟩,
   ⟨[], "x!a.mp4"⟩,
   ⟨[], "x.mp4"⟩]

/-- The catalog the scan produces for `fsC4` (13 videos, root directory,
discovery order). -/
def catC4 : List Video := scanVideos "videos" fsC4


/-! ## Theorems for the claims -/

/-- Bridge used to establish concrete instances of the `sort.Slice`
contract by evaluation. -/
theorem sortSliceContract_of {c l : List Video} (hp : c.Perm l)
    (hs : namesSortedB l = true) : sortSliceContract c l := by
  refine ⟨hp, ?_⟩
  letI : IsTrans Video (fun a b : Video => a.name ≤ b.name) :=
    ⟨fun _ _ _ h1 h2 => le_trans h1 h2⟩
  rw [← List.chain'_iff_pairwise]
  clear hp
  induction l with
  | nil => trivial
  | cons a t ih =>
    cases t with
    | nil => exact List.chain'_singleton a
    | cons b t' =>
      rw [namesSortedB, Bool.and_eq_true, decide_eq_true_eq] at hs
      rw [List.chain'_cons]
      exact ⟨String.le_iff_toList_le.mpr hs.1, ih hs.2⟩

/-- **C10.** If the base name of the scan root itself begins with a dot, the
hidden-directory skip fires on the first walk step: the scan returns an
empty catalog, regardless of the tree's contents, and generation fails with
the fatal `no videos found` error. -/
theorem C10_hidden_root_aborts_generation (rootBase : String) (fs : List FileP)
    (h : isHidden rootBase = true) :
    scanVideos rootBase fs = [] ∧
      generateRun rootBase fs =
        .error ("no videos found in directory '" ++ rootBase ++ "'") := by
  constructor
  · simp [scanVideos, h]
  · simp [generateRun, scanVideos, h, List.isEmpty]

/-- Witness for C10 at the concrete root `.videos`, with a tree that does
contain a video. -/
theorem C10_witness :
    isHidden ".videos" = true ∧
      scanVideos ".videos" [⟨["films"], "a.mp4"⟩] = [] ∧
      generateRun ".videos" [⟨["films"], "a.mp4"⟩] =
        .error "no videos found in directory '.videos'" := by
  refine ⟨rfl, ?_, ?_⟩
  · exact (C10_hidden_root_aborts_generation ".videos" [⟨["films"], "a.mp4"⟩] rfl).1
  · exact (C10_hidden_root_aborts_generation ".videos" [⟨["films"], "a.mp4"⟩] rfl).2

/-- **C6** (code bug).  On the claim's own scenario — root holding `a.mp4`
and `sub/b.mkv`, no `sub/b.mp4` — a successful run writes exactly
`index.html`, `sub_index.html`, `player_a.html` and `player_sub_b.html`:
`style.css` is **not** among the written files, because `Generate`
(generator.go line 118) never calls `generateStylesheet` (defined at line
427 but with no call site), although the repository's README lists
`style.css` among the generated files and `Clean` expects to remove it. -/
theorem C6_no_stylesheet_written :
    generateRun "videos" [⟨[], "a.mp4"⟩, ⟨["sub"], "b.mkv"⟩] =
      .ok ["index.html", "sub_index.html", "player_a.html", "player_sub_b.html"] ∧
      ¬ ("style.css" ∈
        ["index.html", "sub_index.html", "player_a.html", "player_sub_b.html"]) := by
  exact ⟨by rfl, by decide⟩

/-- **C7** (code bug).  The conversion pass is not idempotent: for the
single file `b.MKV`, the first run builds the task and (successfully)
writes its target `b.mp4`; the second run rebuilds the very same task —
the encoder runs again — because the existence probe stats
`b.MKV.mp4` (the lowercased-extension trim of line 909 does not fire on the
uppercase name) while the conversion target of lines 931–932 is `b.mp4`.
The last conjunct shows a task is created even though a file already exists
at its target path. -/
theorem C7_conversion_not_idempotent :
    buildConvertTasks "videos" [⟨[], "b.MKV"⟩] = [⟨[], "b.MKV"⟩] ∧
      fsAfterConvert "videos" [⟨[], "b.MKV"⟩] = [⟨[], "b.MKV"⟩, ⟨[], "b.mp4"⟩] ∧
      buildConvertTasks "videos" [⟨[], "b.MKV"⟩, ⟨[], "b.mp4"⟩] = [⟨[], "b.MKV"⟩] ∧
      convTarget ⟨[], "b.MKV"⟩ = ⟨[], "b.mp4"⟩ ∧
      statExists [⟨[], "b.MKV"⟩, ⟨[], "b.mp4"⟩] [] "b.mp4" = true := by
  exact ⟨by rfl, by rfl, by rfl, by rfl, by rfl⟩

/-! ### C5: listing filenames are not sanitized -/

/-- **C5, counterexample.**  For a video inside the directory `my videos`,
the generated listing filename keeps the space — `generateIndexPage`
(generator.go line 341) only replaces path separators by `_` and never
calls `sanitizeFileName` — while the claim's flattening-and-sanitization
algorithm (which the player filename does use) would produce
`my_videos_index.html`. -/
theorem C5_counterexample :
    generateRun "videos" [⟨["my videos"], "x.mp4"⟩] =
      .ok ["index.html", "my videos_index.html", "player_my_videos_x.html"] ∧
      indexFileName ["my videos"] = "my videos_index.html" ∧
      specIndexFileName ["my videos"] = "my_videos_index.html" ∧
      indexFileName ["my videos"] ≠ specIndexFileName ["my videos"] := by
  refine ⟨by rfl, by rfl, by rfl, by decide⟩

/-- A character survives `sanitizeFileName` unchanged iff it is an ASCII
letter, a digit, `_` or `-`. -/
theorem filterMap_sanitizeChar_eq_self (l : List Char) :
    l.filterMap sanitizeChar = l ↔ ∀ c ∈ l, sanitizeChar c = some c := by
  induction l with
  | nil => simp
  | cons a t ih =>
    constructor
    · intro h
      cases ha : sanitizeChar a with
      | none =>
        exfalso
        have hlen : (t.filterMap sanitizeChar).length ≤ t.length :=
          List.length_filterMap_le _ _
        have h2 := congrArg List.length h
        simp only [List.filterMap_cons, ha, List.length_cons] at h2
        omega
      | some d =>
        have h2 := h
        simp only [List.filterMap_cons, ha] at h2
        injection h2 with hd ht
        subst hd
        intro c hc
        rcases List.mem_cons.mp hc with rfl | hc
        · exact ha
        · exact (ih.mp ht) c hc
    · intro h
      have ha := h a (List.mem_cons_self _ _)
      simp only [List.filterMap_cons, ha]
      rw [ih.mpr (fun c hc => h c (List.mem_cons_of_mem _ hc))]

/-- **C5, amended.**  The listing filename of a non-root directory is the
path segments joined with `_` and suffixed `_index.html`, with **no**
character filtering (the root is the literal `index.html`); it agrees with
the spec's sanitized form exactly when every character of the joined path
already survives sanitization unchanged. -/
theorem C5_index_filename_amended (d : List String) (h : d ≠ []) :
    indexFileName d = String.intercalate "_" d ++ "_index.html" ∧
      indexFileName [] = "index.html" ∧
      (specIndexFileName d = indexFileName d ↔
        ∀ c ∈ (String.intercalate "_" d).data, sanitizeChar c = some c) := by
  refine ⟨by simp [indexFileName, h], rfl, ?_⟩
  rw [specIndexFileName, indexFileName, if_neg h, if_neg h]
  constructor
  · intro he
    have hd := congrArg String.data he
    simp only [String.data_append] at hd
    have h2 := List.append_cancel_right hd
    have h3 : (String.intercalate "_" d).data.filterMap sanitizeChar =
        (String.intercalate "_" d).data := by
      have : (sanitizeFileName (String.intercalate "_" d)).data =
          (String.intercalate "_" d).data.filterMap sanitizeChar := rfl
      rw [← this, h2]
    exact (filterMap_sanitizeChar_eq_self _).mp h3
  · intro hall
    have h3 : sanitizeFileName (String.intercalate "_" d) =
        String.intercalate "_" d := by
      apply String.ext
      show (String.intercalate "_" d).data.filterMap sanitizeChar =
        (String.intercalate "_" d).data
      exact (filterMap_sanitizeChar_eq_self _).mpr hall
    rw [h3]

/-- Witness for the amended C5 at the concrete directory `["films", "a b"]`
(the joined path `films_a b` contains a space, so the two naming schemes
disagree there — and indeed `sanitizeChar ' ' = some '_' ≠ some ' '`). -/
theorem C5_amended_witness :
    (["films", "a b"] : List String) ≠ [] ∧
      indexFileName ["films", "a b"] =
        String.intercalate "_" ["films", "a b"] ++ "_index.html" := by
  exact ⟨by decide, (C5_index_filename_amended ["films", "a b"] (by decide)).1⟩

/-! ### C9: `Clean` removes exactly the root-level generated files -/

/-- Unfolding the pattern-by-pattern glob-and-remove loop of `Clean`:
after processing `pats`, the remaining files are those matching no pattern,
and a file was removed iff it was present and matched some pattern. -/
theorem clean_foldl_characterization (pats : List String) (acc cur : List FileP) :
    (pats.foldl
        (fun st p =>
          let hits := st.2.filter (globMatches p)
          (st.1 ++ hits, st.2.filter (fun f => !globMatches p f)))
        (acc, cur)).2 =
      cur.filter (fun f => !(pats.any (fun p => globMatches p f))) ∧
    ∀ f : FileP,
      f ∈ (pats.foldl
        (fun st p =>
          let hits := st.2.filter (globMatches p)
          (st.1 ++ hits, st.2.filter (fun f => !globMatches p f)))
        (acc, cur)).1 ↔
      f ∈ acc ∨ (f ∈ cur ∧ pats.any (fun p => globMatches p f) = true) := by
  induction pats generalizing acc cur with
  | nil => simp
  | cons p ps ih =>
    simp only [List.foldl_cons]
    have h := ih (acc ++ cur.filter (globMatches p))
      (cur.filter (fun f => !globMatches p f))
    refine ⟨?_, ?_⟩
    · rw [h.1, List.filter_filter]
      congr 1
      funext f
      by_cases hp : globMatches p f <;> simp [hp]
    · intro f
      rw [h.2 f]
      by_cases hp : globMatches p f = true <;>
        simp [hp, List.mem_append, List.mem_filter]

/-- **C9.**  `Clean` deletes exactly the files lying directly in the root
whose names match one of `index.html`, `style.css`, `*_index.html`,
`player_*.html`; every other root-level file, and every file inside any
subdirectory, is left in place. -/
theorem C9_clean_exact (fs : List FileP) :
    (cleanRun fs).2 = fs.filter (fun f => !isCleanTarget f) ∧
      (∀ f : FileP, f ∈ (cleanRun fs).1 ↔ f ∈ fs ∧ isCleanTarget f = true) ∧
      (∀ f ∈ fs, f.dir ≠ [] → f ∈ (cleanRun fs).2) := by
  have key : ∀ f : FileP,
      (cleanPatterns.any (fun p => globMatches p f)) = isCleanTarget f := by
    intro f
    by_cases hd : (f.dir == []) = true <;>
      simp [globMatches, isCleanTarget, hd, cleanPatterns]
  have h := clean_foldl_characterization cleanPatterns [] fs
  simp only [cleanRun]
  refine ⟨?_, ?_, ?_⟩
  · rw [h.1]
    congr 1
    funext f
    rw [key f]
  · intro f
    rw [h.2 f, key f]
    simp
  · intro f hf hdir
    rw [h.1, List.mem_filter]
    refine ⟨hf, ?_⟩
    rw [key f]
    simp only [isCleanTarget, Bool.not_eq_true']
    have : (f.dir == []) = false := by
      simpa using hdir
    simp [this]

/-- Witness for C9 on a concrete mixed filesystem: the generated artifacts
in the root are removed, the media file in the root and the
generated-looking file inside `sub/` are kept. -/
theorem C9_witness :
    (⟨["sub"], "player_b.html"⟩ : FileP) ∈
      (cleanRun [⟨[], "index.html"⟩, ⟨[], "notes.txt"⟩,
        ⟨["sub"], "player_b.html"⟩]).2 ∧
    (cleanRun [⟨[], "index.html"⟩, ⟨[], "notes.txt"⟩,
        ⟨["sub"], "player_b.html"⟩]).2 =
      [⟨[], "notes.txt"⟩, ⟨["sub"], "player_b.html"⟩] := by
  constructor
  · exact (C9_clean_exact [⟨[], "index.html"⟩, ⟨[], "notes.txt"⟩,
      ⟨["sub"], "player_b.html"⟩]).2.2 ⟨["sub"], "player_b.html"⟩
      (by decide) (by decide)
  · rw [(C9_clean_exact [⟨[], "index.html"⟩, ⟨[], "notes.txt"⟩,
      ⟨["sub"], "player_b.html"⟩]).1]
    rfl

/-! ### C8: per-task failure isolation of the conversion loop -/

/-- Unfolding the conversion loop from an arbitrary accumulated outcome. -/
theorem runConvertLoop_acc (tasks : List FileP) (encErr : FileP → Option String)
    (o : ConvOutcome) :
    tasks.foldl
      (fun o t =>
        match encErr t with
        | some c =>
          { o with
            warnings := o.warnings ++ [(t.base, c)]
            removed := o.removed ++ [convTarget t] }
        | none => { o with converted := o.converted ++ [convTarget t] }) o =
    { warnings := o.warnings ++
        tasks.filterMap (fun t => (encErr t).map (fun c => (t.base, c)))
      removed := o.removed ++
        (tasks.filter (fun t => (encErr t).isSome)).map convTarget
      converted := o.converted ++
        (tasks.filter (fun t => (encErr t).isNone)).map convTarget } := by
  induction tasks generalizing o with
  | nil => simp
  | cons t ts ih =>
    simp only [List.foldl_cons]
    cases he : encErr t with
    | some c =>
      rw [ih]
      simp [he, List.filterMap_cons, List.filter_cons]
    | none =>
      rw [ih]
      simp [he, List.filterMap_cons, List.filter_cons]

/-- **C8.**  With the encoder binary present (and the GPU probe either not
requested or passing), the conversion pass returns successfully no matter
how many individual tasks fail; every failing task contributes exactly one
warning naming the file and the cause and one removal of the partial
output at its target, every succeeding task writes its target, and tasks
after a failure are still processed (the outcome lists cover all tasks in
order). -/
theorem C8_failure_isolation (rootBase : String) (fs : List FileP)
    (useGPU : Bool) (encErr : FileP → Option String) (tasks : List FileP) :
    convertVideos true useGPU none rootBase fs encErr =
      .ok (runConvertLoop (buildConvertTasks rootBase fs) encErr) ∧
    (runConvertLoop tasks encErr).warnings =
      tasks.filterMap (fun t => (encErr t).map (fun c => (t.base, c))) ∧
    (runConvertLoop tasks encErr).removed =
      (tasks.filter (fun t => (encErr t).isSome)).map convTarget ∧
    (runConvertLoop tasks encErr).converted =
      (tasks.filter (fun t => (encErr t).isNone)).map convTarget := by
  refine ⟨by simp [convertVideos], ?_, ?_, ?_⟩ <;>
    rw [runConvertLoop, runConvertLoop_acc] <;> simp

/-! ### C2: directory closure and absence of dangling links -/

/-- A nonempty list's prefixes are itself plus the prefixes of its
`dropLast`. -/
theorem prefix_iff_eq_or_prefix_dropLast {x d : List String} (hd : d ≠ []) :
    x <+: d ↔ x = d ∨ x <+: d.dropLast := by
  constructor
  · intro h
    by_cases hx : x = d
    · exact Or.inl hx
    · refine Or.inr (List.prefix_of_prefix_length_le h (List.dropLast_prefix d) ?_)
      have hlt : x.length < d.length := by
        rcases Nat.lt_or_ge x.length d.length with h1 | h1
        · exact h1
        · exact absurd (List.IsPrefix.eq_of_length h
            (Nat.le_antisymm h.length_le h1)) hx
      have : d.dropLast.length = d.length - 1 := List.length_dropLast d
      have hdpos : 0 < d.length := List.length_pos.mpr hd
      omega
  · rintro (rfl | h)
    · exact List.prefix_refl _
    · exact h.trans (List.dropLast_prefix d)

/-- The upward walk of `generateIndexPages` visits exactly the nonempty
prefixes of the starting directory. -/
theorem mem_ancestorsOfAux (n : Nat) (d x : List String) (hn : d.length ≤ n) :
    x ∈ ancestorsOfAux n d ↔ x ≠ [] ∧ x <+: d := by
  induction n generalizing d with
  | zero =>
    have : d = [] := List.length_eq_zero.mp (Nat.le_zero.mp hn)
    subst this
    simp only [ancestorsOfAux, List.not_mem_nil, false_iff]
    rintro ⟨hne, hp⟩
    exact hne (List.prefix_nil.mp hp)
  | succ n ih =>
    cases d with
    | nil =>
      simp only [ancestorsOfAux, List.not_mem_nil, false_iff]
      rintro ⟨hne, hp⟩
      exact hne (List.prefix_nil.mp hp)
    | cons a t =>
      simp only [ancestorsOfAux, List.mem_cons]
      have hlen : (a :: t).dropLast.length ≤ n := by
        rw [List.length_dropLast]
        simp only [List.length_cons] at hn ⊢
        omega
      rw [ih _ hlen, prefix_iff_eq_or_prefix_dropLast (List.cons_ne_nil a t)]
      constructor
      · rintro (rfl | ⟨hne, hp⟩)
        · exact ⟨List.cons_ne_nil a t, Or.inl rfl⟩
        · exact ⟨hne, Or.inr hp⟩
      · rintro ⟨hne, rfl | hp⟩
        · exact Or.inl rfl
        · exact Or.inr ⟨hne, hp⟩

theorem mem_ancestorsOf (d x : List String) :
    x ∈ ancestorsOf d ↔ x ≠ [] ∧ x <+: d :=
  mem_ancestorsOfAux d.length d x (Nat.le_refl _)

/-- Membership in the required-directory set: the root plus every nonempty
prefix of some video's directory. -/
theorem mem_requiredDirs (cat : List Video) (x : List String) :
    x ∈ requiredDirs cat ↔
      x = [] ∨ ∃ v ∈ cat, x ≠ [] ∧ x <+: v.directory := by
  simp only [requiredDirs, List.mem_dedup, List.mem_cons, List.mem_flatMap,
    mem_ancestorsOf]

/-- A grouping key contributing child segment `s` to the page of `dir`
extends `dir ++ [s]`. -/
theorem childSeg_prefix {dir d : List String} {s : String}
    (h : childSeg dir d = some s) : dir ++ [s] <+: d := by
  rw [childSeg] at h
  by_cases h1 : d == dir
  · simp [h1] at h
  · rw [if_neg h1] at h
    by_cases h2 : dir.isPrefixOf d
    · rw [if_pos h2] at h
      have hpre : dir <+: d := List.isPrefixOf_iff_prefix.mp h2
      obtain ⟨r, hr⟩ := hpre
      have hdrop : d.drop dir.length = r := by
        rw [← hr, List.drop_left]
      rw [hdrop] at h
      cases r with
      | nil => simp at h
      | cons c cs =>
        simp only [List.head?_cons, Option.some.injEq] at h
        subst h
        exact ⟨cs, by rw [← hr]; simp⟩
    · simp [h2] at h

/-- **C2.**  The set of directories that receive a listing page is exactly
the root plus the upward closure (all nonempty prefixes) of the owning
directory of every cataloged video; and every subdirectory entry emitted on
any generated page links to a listing filename that is itself generated in
the same run. -/
theorem C2_closure_and_no_dangling_links (cat : List Video) :
    (∀ x : List String, x ∈ requiredDirs cat ↔
      x = [] ∨ ∃ v ∈ cat, x ≠ [] ∧ x <+: v.directory) ∧
    (∀ d ∈ requiredDirs cat, ∀ e ∈ subdirEntries cat d,
      e.path ∈ (requiredDirs cat).map indexFileName) := by
  refine ⟨mem_requiredDirs cat, ?_⟩
  intro d _ e he
  simp only [subdirEntries, List.mem_map] at he
  obtain ⟨s, hs, rfl⟩ := he
  have hs2 : s ∈ subdirNames cat d :=
    ((List.perm_insertionSort (α := String) (· ≤ ·) _).mem_iff).mp hs
  simp only [subdirNames, List.mem_dedup, List.mem_filterMap] at hs2
  obtain ⟨k, hk, hck⟩ := hs2
  simp only [dirTreeKeys, List.mem_dedup, List.mem_map] at hk
  obtain ⟨v, hv, rfl⟩ := hk
  have hpre : d ++ [s] <+: v.directory := childSeg_prefix hck
  have hmem : d ++ [s] ∈ requiredDirs cat := by
    rw [mem_requiredDirs]
    exact Or.inr ⟨v, hv, by simp, hpre⟩
  refine List.mem_map.mpr ⟨d ++ [s], hmem, ?_⟩
  rw [indexFileName, if_neg (by simp)]

/-- Witness for C2 on the claim's own shape `a/b/c`: pages are generated
for the root, `a`, `a/b` and `a/b/c`, and the root page's single
subdirectory entry links to the generated `a_index.html`. -/
theorem C2_witness :
    (([ "a" ] : List String) ∈
        requiredDirs (scanVideos "v" [⟨["a", "b", "c"], "x.mp4"⟩]) ∧
      (["a", "b"] : List String) ∈
        requiredDirs (scanVideos "v" [⟨["a", "b", "c"], "x.mp4"⟩]) ∧
      (["a", "b", "c"] : List String) ∈
        requiredDirs (scanVideos "v" [⟨["a", "b", "c"], "x.mp4"⟩]) ∧
      ([] : List String) ∈
        requiredDirs (scanVideos "v" [⟨["a", "b", "c"], "x.mp4"⟩])) ∧
    (⟨"a", "a_index.html"⟩ : DirEntry) ∈
        subdirEntries (scanVideos "v" [⟨["a", "b", "c"], "x.mp4"⟩]) [] ∧
    "a_index.html" ∈
      (requiredDirs (scanVideos "v" [⟨["a", "b", "c"], "x.mp4"⟩])).map
        indexFileName := by
  refine ⟨by decide, by decide, ?_⟩
  exact (C2_closure_and_no_dangling_links
      (scanVideos "v" [⟨["a", "b", "c"], "x.mp4"⟩])).2
    [] (by decide) ⟨"a", "a_index.html"⟩ (by decide)

/-! ### C3: previous/next links are exactly the sorted neighbours -/

/-- The scanning loop, entered at offset `i`, stops at the first matching
position and returns the `Nav` record for the corresponding absolute
index. -/
theorem findNavLoop_eq_navAt (all : List Video) (v : Video) :
    ∀ (suf : List Video) (i k : Nat) (hk : k < suf.length),
      (∀ m (hm : m < k),
        (suf.get ⟨m, Nat.lt_trans hm hk⟩).relativePath ≠ v.relativePath) →
      (suf.get ⟨k, hk⟩).relativePath = v.relativePath →
      findNavLoop all v suf i = navAt all (i + k) := by
  intro suf
  induction suf with
  | nil => intro i k hk; exact absurd hk (by simp)
  | cons w rest ih =>
    intro i k hk hmiss heq
    cases k with
    | zero =>
      simp only [List.get] at heq
      simp [findNavLoop, heq]
    | succ k =>
      have hw : w.relativePath ≠ v.relativePath := hmiss 0 (Nat.succ_pos k)
      have hstep : findNavLoop all v (w :: rest) i =
          findNavLoop all v rest (i + 1) := by
        simp [findNavLoop, hw]
      rw [hstep]
      have hk' : k < rest.length := by
        simpa using Nat.lt_of_succ_lt_succ hk
      have h2 := ih (i + 1) k hk'
        (fun m hm => hmiss (m + 1) (Nat.succ_lt_succ hm))
        heq
      rw [h2]
      congr 1
      omega

/-- **C3.**  For any name-sorted arrangement `l` of a directory's videos
(the `sort.Slice` contract), with pairwise distinct relative paths, the
player page of the video at sorted index `j` links exactly to its sorted
neighbours: no "previous" at index `0`, no "next" at index `N-1`, and the
neighbouring player-page filenames everywhere else — no wraparound. -/
theorem C3_navigation_neighbors (cat : List Video) (d : List String)
    (l : List Video) (hsort : sortSliceContract (dirVideos cat d) l)
    (hnd : (l.map (fun v => v.relativePath)).Nodup)
    (j : Nat) (hj : j < l.length) :
    findNav l (l.get ⟨j, hj⟩) = navAt l j ∧
      (j = 0 → (findNav l (l.get ⟨j, hj⟩)).hasPrev = false ∧
        (findNav l (l.get ⟨j, hj⟩)).prevVideo = "") ∧
      (j = l.length - 1 → (findNav l (l.get ⟨j, hj⟩)).hasNext = false ∧
        (findNav l (l.get ⟨j, hj⟩)).nextVideo = "") ∧
      (∀ h0 : 0 < j, (findNav l (l.get ⟨j, hj⟩)).hasPrev = true ∧
        (findNav l (l.get ⟨j, hj⟩)).prevVideo =
          (l.get ⟨j - 1, Nat.lt_of_le_of_lt (Nat.sub_le j 1) hj⟩).playerPage) ∧
      (∀ h1 : j + 1 < l.length, (findNav l (l.get ⟨j, hj⟩)).hasNext = true ∧
        (findNav l (l.get ⟨j, hj⟩)).nextVideo =
          (l.get ⟨j + 1, h1⟩).playerPage) := by
  have hmain : findNav l (l.get ⟨j, hj⟩) = navAt l j := by
    have hinj := List.nodup_iff_injective_get.mp hnd
    have hmiss : ∀ m (hm : m < j),
        (l.get ⟨m, Nat.lt_trans hm hj⟩).relativePath ≠
          (l.get ⟨j, hj⟩).relativePath := by
      intro m hm hEq
      have hm' : m < (l.map (fun v => v.relativePath)).length := by
        simpa using Nat.lt_trans hm hj
      have hj' : j < (l.map (fun v => v.relativePath)).length := by
        simpa using hj
      have : (⟨m, hm'⟩ : Fin _) = ⟨j, hj'⟩ := by
        apply hinj
        simp only [List.get_map]
        exact hEq
      have := Fin.mk.injEq _ _ _ _ ▸ this
      simp only [Fin.mk.injEq] at this
      omega
    have := findNavLoop_eq_navAt l (l.get ⟨j, hj⟩) l 0 j hj hmiss rfl
    simpa [findNav] using this
  refine ⟨hmain, ?_, ?_, ?_, ?_⟩
  · rintro rfl
    rw [hmain]
    simp [navAt]
  · rintro rfl
    rw [hmain]
    have : ¬ (l.length - 1 + 1 < l.length) := by omega
    simp [navAt, this]
  · intro h0
    rw [hmain]
    have hj1 : j - 1 < l.length := Nat.lt_of_le_of_lt (Nat.sub_le j 1) hj
    simp only [navAt, h0, if_pos, decide_eq_true_eq]
    refine ⟨by simp [h0], ?_⟩
    rw [List.get?_eq_get hj1]
    simp
  · intro h1
    rw [hmain]
    simp only [navAt, h1, if_pos, decide_eq_true_eq]
    refine ⟨by simp [h1], ?_⟩
    rw [List.get?_eq_get h1]
    simp

/-- Witness for C3 at a concrete three-video directory: the middle video's
player page links to exactly its two sorted neighbours. -/
theorem C3_witness :
    findNav (scanVideos "v" [⟨[], "a.mp4"⟩, ⟨[], "b.mp4"⟩, ⟨[], "c.mp4"⟩])
      ((scanVideos "v" [⟨[], "a.mp4"⟩, ⟨[], "b.mp4"⟩, ⟨[], "c.mp4"⟩]).get
        ⟨1, by decide⟩) =
      ⟨true, "player_a.html", true, "player_c.html"⟩ := by
  have h := (C3_navigation_neighbors
    (scanVideos "v" [⟨[], "a.mp4"⟩, ⟨[], "b.mp4"⟩, ⟨[], "c.mp4"⟩]) []
    (scanVideos "v" [⟨[], "a.mp4"⟩, ⟨[], "b.mp4"⟩, ⟨[], "c.mp4"⟩])
    (sortSliceContract_of (by decide) (by decide)) (by decide) 1
    (by decide)).1
  exact h.trans (by decide)

/-! ### C1: conversion-aware deduplication -/

/-- Every member of the needs-conversion set is already lowercase. -/
theorem lower_of_needsConversion {e : String} (he : e ∈ needsConversion) :
    goToLower e = e := by
  simp only [needsConversion, List.mem_cons, List.not_mem_nil, or_false] at he
  rcases he with rfl | rfl | rfl | rfl | rfl <;> rfl

/-- Appending a `.mp4` suffix makes `.mp4` the extension, whatever the
stem. -/
theorem goExt_append_mp4 (s : String) : goExt (s ++ ".mp4") = ".mp4" := by
  have hdata : (s ++ ".mp4").data = s.data ++ ['.', 'm', 'p', '4'] := by
    rw [String.data_append]
  simp only [goExt, hdata, List.reverse_append]
  have hrev : (['.', 'm', 'p', '4'] : List Char).reverse = ['4', 'p', 'm', '.'] := rfl
  rw [hrev]
  have htake : (['4', 'p', 'm', '.'] ++ s.data.reverse).takeWhile
      (fun c => c ≠ '.') = ['4', 'p', 'm'] := rfl
  rw [htake]
  rw [if_neg (by simp)]
  decide

/-- A file is determined by its relative path. -/
theorem filep_relpath_inj {g h : FileP}
    (he : g.dir ++ [g.base] = h.dir ++ [h.base]) : g = h := by
  obtain ⟨h1, h2⟩ := List.append_inj' he rfl
  cases g
  cases h
  simp_all

/-- The relative-path comparison on built `Video`s is file equality. -/
theorem relpath_beq_eq_beq (g h : FileP) :
    (g.dir ++ [g.base] == h.dir ++ [h.base]) = (g == h) := by
  by_cases he : g = h
  · subst he
    simp
  · have hne : ¬ (g.dir ++ [g.base] = h.dir ++ [h.base]) :=
      fun hc => he (filep_relpath_inj hc)
    simp [he, hne]

/-- **C1, counterexample.**  On the filesystem `b.MKV`, `b.mp4`, `b.webm`
(one directory, walk order), the lowercase extension of `b.MKV` is in the
needs-conversion set and the sibling `b.mp4` exists, yet `b.MKV` is *not*
excluded — the dedup probe stats `b.MKV.mp4`, because the trim of the
lowercased extension `.mkv` does not fire on `b.MKV` — and the catalog
holds three entries whose base name is `b`, not exactly one. -/
theorem C1_counterexample :
    (scanVideos "videos" [⟨[], "b.MKV"⟩, ⟨[], "b.mp4"⟩, ⟨[], "b.webm"⟩]).map
        (fun v => v.relativePath) = [["b.MKV"], ["b.mp4"], ["b.webm"]] ∧
      goToLower (goExt "b.MKV") ∈ needsConversion ∧
      (⟨[], "b.mp4"⟩ : FileP) ∈
        [(⟨[], "b.MKV"⟩ : FileP), ⟨[], "b.mp4"⟩, ⟨[], "b.webm"⟩] ∧
      goTrimSuffix "b.MKV" (goExt "b.MKV") ++ ".mp4" = "b.mp4" ∧
      mp4SiblingName "b.MKV" = "b.MKV.mp4" ∧
      ((scanVideos "videos" [⟨[], "b.MKV"⟩, ⟨[], "b.mp4"⟩, ⟨[], "b.webm"⟩]).filter
        (fun v => goTrimSuffix v.fileName (goExt v.fileName) == "b")).length = 3 := by
  refine ⟨by rfl, by decide, by decide, by decide, by decide, by rfl⟩

/-- **C1, amended.**  For a file whose extension *as written* is (lowercase
and) in the needs-conversion set, an existing sibling with the same base
name and extension `.mp4` does exclude the file from the catalog, and the
catalog then holds exactly one entry with the sibling's relative path,
whose recorded extension is `.mp4`.  (The as-written restriction is forced
by the counterexample: the dedup probe trims the *lowercased* extension off
the *unlowercased* name.  And only entries at the sibling's exact relative
path can be counted: a same-named file with another native extension, such
as `b.webm`, is cataloged as well.) -/
theorem C1_dedup_amended (rootBase : String) (fs : List FileP) (f : FileP)
    (hnd : fs.Nodup) (hmem : f ∈ fs) (hreach : walkReaches f = true)
    (hext : goExt f.base ∈ needsConversion)
    (hsib : (⟨f.dir, goTrimSuffix f.base (goExt f.base) ++ ".mp4"⟩ : FileP) ∈ fs) :
    ((scanVideos rootBase fs).filter
        (fun v => v.relativePath == f.dir ++ [f.base])) = [] ∧
      (isHidden rootBase = false →
        ((scanVideos rootBase fs).filter (fun v => v.relativePath ==
          f.dir ++ [goTrimSuffix f.base (goExt f.base) ++ ".mp4"])).length = 1) ∧
      (∀ v ∈ scanVideos rootBase fs,
        v.relativePath = f.dir ++ [goTrimSuffix f.base (goExt f.base) ++ ".mp4"] →
          v.extension = ".mp4") := by
  have hlow : goToLower (goExt f.base) = goExt f.base :=
    lower_of_needsConversion hext
  have hsibname : mp4SiblingName f.base =
      goTrimSuffix f.base (goExt f.base) ++ ".mp4" := by
    rw [mp4SiblingName, hlow]
  have hstat : statExists fs f.dir (mp4SiblingName f.base) = true := by
    rw [statExists, List.any_eq_true]
    refine ⟨_, hsib, ?_⟩
    rw [hsibname]
    simp
  have hkeep : scanKeeps fs f = false := by
    have hne : needsConversion.contains (goExt f.base) = true := by
      simpa using hext
    simp only [scanKeeps, hlow]
    cases hv : videoExtensions.contains (goExt f.base) <;>
      simp [hne, hstat, hext]
  -- the sibling file and the facts about it
  set sib : FileP := ⟨f.dir, goTrimSuffix f.base (goExt f.base) ++ ".mp4"⟩ with hsibdef
  have hsibext : goExt sib.base = ".mp4" := goExt_append_mp4 _
  have hsibkeep : scanKeeps fs sib = true := by
    simp only [scanKeeps, hsibext]
    rfl
  have hsibreach : walkReaches sib = true := hreach
  refine ⟨?_, ?_, ?_⟩
  · rw [List.filter_eq_nil_iff]
    intro v hv
    simp only [scanVideos] at hv
    by_cases hr : isHidden rootBase
    · simp [hr] at hv
    · rw [if_neg hr] at hv
      obtain ⟨g, hg, rfl⟩ := List.mem_map.mp hv
      have hgkeep : scanKeeps fs g = true := (List.mem_filter.mp hg).2
      simp only [mkVideo, beq_iff_eq]
      intro hEq
      have : g = f := filep_relpath_inj hEq
      subst this
      rw [hgkeep] at hkeep
      exact absurd hkeep (by decide)
  · intro hroot
    simp only [scanVideos, if_neg (by simp [hroot] : ¬ isHidden rootBase = true)]
    rw [← List.countP_eq_length_filter, List.countP_map]
    have hpt : ((fun v : Video => v.relativePath == f.dir ++ [sib.base]) ∘ mkVideo) =
        (fun g : FileP => g == sib) := by
      funext g
      simp only [Function.comp_apply, mkVideo]
      exact relpath_beq_eq_beq g sib
    rw [hpt]
    have h1 : ((fs.filter walkReaches).filter (scanKeeps fs)).count sib =
        (fs.filter walkReaches).count sib := List.count_filter hsibkeep
    have h2 : (fs.filter walkReaches).count sib = fs.count sib :=
      List.count_filter hsibreach
    have h3 : fs.count sib = 1 := List.count_eq_one_of_mem hnd hsib
    simpa [List.count] using h1.trans (h2.trans h3)
  · intro v hv hEq
    simp only [scanVideos] at hv
    by_cases hr : isHidden rootBase
    · simp [hr] at hv
    · rw [if_neg hr] at hv
      obtain ⟨g, _, rfl⟩ := List.mem_map.mp hv
      have : g = sib := filep_relpath_inj hEq
      subst this
      simp only [mkVideo]
      rw [hsibext]
      rfl

/-- Witness for the amended C1: `film.mkv` (lowercase extension) next to
`film.mp4` is excluded, and the catalog holds exactly one entry at
`film.mp4`, with extension `.mp4`. -/
theorem C1_amended_witness :
    ((scanVideos "videos" [⟨["d"], "film.mkv"⟩, ⟨["d"], "film.mp4"⟩]).filter
        (fun v => v.relativePath == ["d", "film.mkv"])) = [] ∧
      ((scanVideos "videos" [⟨["d"], "film.mkv"⟩, ⟨["d"], "film.mp4"⟩]).filter
        (fun v => v.relativePath == ["d", "film.mp4"])).length = 1 := by
  have h := C1_dedup_amended "videos" [⟨["d"], "film.mkv"⟩, ⟨["d"], "film.mp4"⟩]
    ⟨["d"], "film.mkv"⟩ (by decide) (by decide) (by decide) (by decide)
    (by decide)
  exact ⟨h.1, h.2.1 (by decide)⟩


set_option maxRecDepth 100000 in
/-- **C4, counterexample.**  On `fsC4` the directory's video list is 13
long, so `sort.Slice` leaves insertion sort for pdqsort's partitioning
path, and the run it actually performs — `goSortSlice`, the transcription
of the standard library's algorithm — *reverses* the two videos with the
equal display name `x!a!a!a!a!a!a` relative to their discovery order (the
`.3gp` is discovered at index 5, before the `.m4v` at index 6, but comes
out *after* it, at sorted index 7 versus 6), while satisfying everything
`sort.Slice` documents (a name-sorted permutation — its documentation
expressly disclaims stability).  The claim's stable-tiebreak assertion is
therefore false of the code. -/
theorem C4_counterexample :
    catC4.findIdx (fun v => v.fileName == "x!a!a!a!a!a!a.3gp") = 5 ∧
      catC4.findIdx (fun v => v.fileName == "x!a!a!a!a!a!a.m4v") = 6 ∧
      (catC4.getD 5 default).name = (catC4.getD 6 default).name ∧
      dirVideos catC4 [] = catC4 ∧
      sortSliceContract (dirVideos catC4 []) (goSortSlice catC4) ∧
      (goSortSlice catC4).findIdx
        (fun v => v.fileName == "x!a!a!a!a!a!a.m4v") = 6 ∧
      (goSortSlice catC4).findIdx
        (fun v => v.fileName == "x!a!a!a!a!a!a.3gp") = 7 := by
  refine ⟨by rfl, by rfl, by rfl, by rfl, ?_, by rfl, by rfl⟩
  exact sortSliceContract_of (by decide) (by rfl)

/-- **C4, amended.**  Subdirectory entries are sorted strictly (their
names are distinct, so their order is fully determined); video entries are
some permutation of the directory's videos that is sorted lexicographically
and case-sensitively by display name — but the relative order of two videos
with *equal* display names is not specified (the sort is not stable), so
the discovery-order tiebreak of the original claim is not guaranteed. -/
theorem C4_sort_order_amended (cat : List Video) (d : List String)
    (l : List Video) (hsort : sortSliceContract (dirVideos cat d) l) :
    (subdirEntries cat d).Pairwise (fun a b => a.name < b.name) ∧
      l.Pairwise (fun a b => a.name ≤ b.name) ∧
      (dirVideos cat d).Perm l := by
  refine ⟨?_, hsort.2, hsort.1⟩
  have hnd : (subdirNames cat d).Nodup := List.nodup_dedup _
  have hperm := List.perm_insertionSort (α := String) (· ≤ ·) (subdirNames cat d)
  have hnds : ((subdirNames cat d).insertionSort (· ≤ ·)).Nodup :=
    (hperm.nodup_iff).mpr hnd
  have hsorted : List.Sorted (· ≤ ·) ((subdirNames cat d).insertionSort (· ≤ ·)) :=
    List.sorted_insertionSort _ _
  have hlt : List.Sorted (· < ·) ((subdirNames cat d).insertionSort (· ≤ ·)) :=
    hsorted.lt_of_le hnds
  rw [subdirEntries, List.pairwise_map]
  exact hlt

/-- Witness for the amended C4, at the catalog of
`a.mp4`, `s1/b.mp4`, `s2/c.mp4` with the root page's videos in their
(already sorted) discovery order. -/
theorem C4_amended_witness :
    (subdirEntries
        (scanVideos "v" [⟨[], "a.mp4"⟩, ⟨["s1"], "b.mp4"⟩, ⟨["s2"], "c.mp4"⟩])
        []).Pairwise (fun a b => a.name < b.name) ∧
      (dirVideos
          (scanVideos "v" [⟨[], "a.mp4"⟩, ⟨["s1"], "b.mp4"⟩, ⟨["s2"], "c.mp4"⟩])
          []).Perm
        (dirVideos
          (scanVideos "v" [⟨[], "a.mp4"⟩, ⟨["s1"], "b.mp4"⟩, ⟨["s2"], "c.mp4"⟩])
          []) := by
  have h := C4_sort_order_amended
    (scanVideos "v" [⟨[], "a.mp4"⟩, ⟨["s1"], "b.mp4"⟩, ⟨["s2"], "c.mp4"⟩]) []
    (dirVideos
      (scanVideos "v" [⟨[], "a.mp4"⟩, ⟨["s1"], "b.mp4"⟩, ⟨["s2"], "c.mp4"⟩]) [])
    (sortSliceContract_of (List.Perm.refl _) (by rfl))
  exact ⟨h.1, h.2.2⟩

end VSite

